import Mathlib

/-!
Verification of the skyrimfolder snapshot/compare tool.

The program (src/main.py, src/skyrimfolder/utils/filesystem.py) captures a
directory tree as a value (classes File and Directory), flattens it to
root-relative paths via a pre-order walk, and compares a live tree against a
stored snapshot by set difference.

Embedding conventions:
  - a filesystem path is a list of components (List String); the relative
    path "." is the empty list;
  - the on-disk state a Directory or File is constructed from is an FSNode
    tree (a file with a byte size, or a directory with a named child list in
    iterdir order);
  - the captured objects are Entry values: Entry.file carries the path and
    the size stored by File.__init__, Entry.dir carries the path, the
    children captured by Directory._get_children and the size stored by
    Directory.__init__.
-/

/-- A file system path, as its list of components.  The relative path "."
is the empty list. -/
abbrev FsPath := List String

/-- pathlib's Path.relative_to, used by FileSystemEntry.relative_to
(filesystem.py lines 53-62) and Directory.relative_to (lines 202-207):
the suffix of the first path past the second, when the second path contains
the first; otherwise it raises ValueError, modelled as none. -/
def Path.relative_to : FsPath → FsPath → Option FsPath
  | p, [] => some p
  | [], _ :: _ => none
  | a :: p, b :: q => if a = b then Path.relative_to p q else none

/-- The first path contains the second: the second extends it by some
(possibly empty) suffix.  This is the success condition of relative_to. -/
def isWithin (other p : FsPath) : Prop := ∃ t, other ++ t = p

/-- A captured file system entry: File (filesystem.py lines 65-115) or
Directory (lines 118-207).  Both store their path; a File stores the size
taken by stat at construction (line 68); a Directory stores the child list
captured at construction (line 121) and the size computed at construction
(line 122). -/
inductive Entry where
  | file (path : FsPath) (sizeStored : Nat)
  | dir (path : FsPath) (children : List Entry) (sizeStored : Nat)

/-- The path property shared by File and Directory (lines 70-72, 124-126). -/
def Entry.path : Entry → FsPath
  | .file p _ => p
  | .dir p _ _ => p

/-- The name property (lines 34-36, 139-141): the final path component. -/
def Entry.name (e : Entry) : String := (Entry.path e).getLastD ""

/-- Whether the entry is a File (as opposed to a Directory). -/
def Entry.isFile : Entry → Bool
  | .file _ _ => true
  | .dir _ _ _ => false

/-- The stored size field: File._size (line 68) or Directory._size
(line 122). -/
def Entry.sizeStoredOf : Entry → Nat
  | .file _ s => s
  | .dir _ _ s => s

mutual

/-- The size property.  For a File it returns the stored size (lines 74-76);
for a Directory it recomputes the sum of the children's sizes on each access
(lines 132-137). -/
def Entry.size : Entry → Nat
  | .file _ s => s
  | .dir _ cs _ => sizeAll cs

/-- The accumulation loop of Directory.size and Directory._calculate_size
(lines 134-136, 158-160): total_size starts at 0 and adds each child's
size in order. -/
def sizeAll : List Entry → Nat
  | [] => 0
  | c :: cs => Entry.size c + sizeAll cs

end

mutual

/-- Directory.walk (lines 180-184): yield each child, and after a child that
is a Directory, the child's whole walk, before the next sibling.  A File has
no walk; the empty sequence stands for the never-taken recursive call on a
File child. -/
def Entry.walk : Entry → List Entry
  | .file _ _ => []
  | .dir _ cs _ => walkAll cs

/-- The loop body of Directory.walk over a child list. -/
def walkAll : List Entry → List Entry
  | [] => []
  | c :: cs => c :: Entry.walk c ++ walkAll cs

end

/-- File.__eq__ (lines 109-112) and Directory.__eq__ (lines 169-172): a File
equals only a File with the same path, a Directory only a Directory with the
same path; an isinstance mismatch returns False. -/
def Entry.eqPy : Entry → Entry → Bool
  | .file p _, .file q _ => p == q
  | .dir p _ _, .dir q _ _ => p == q
  | _, _ => false

/-- File.__hash__ (lines 114-115) and Directory.__hash__ (lines 174-175):
hash(self._path), a fixed function of the path alone. -/
def Entry.hashPy (e : Entry) : UInt64 := hash (Entry.path e)

/-- The captured child list: Directory.children (lines 128-130); a File has
none. -/
def Entry.childrenOf : Entry → List Entry
  | .file _ _ => []
  | .dir _ cs _ => cs

/-- Directory.get_child (lines 163-167): linear scan of the captured
children for the first whose name matches; None when absent. -/
def Directory.get_child (d : Entry) (nm : String) : Option Entry :=
  (Entry.childrenOf d).find? (fun c => Entry.name c == nm)

/-- FileSystemEntry.relative_to (lines 53-62) and Directory.relative_to
(lines 202-207): delegate to Path.relative_to on the two entries' paths. -/
def Entry.relative_to (e o : Entry) : Option FsPath :=
  Path.relative_to (Entry.path e) (Entry.path o)

/-- Strict descendant in a captured tree: a child of the directory, or a
descendant of one of its children. -/
inductive Desc : Entry → Entry → Prop
  | here {c : Entry} {p : FsPath} {cs : List Entry} {s : Nat} :
      c ∈ cs → Desc c (Entry.dir p cs s)
  | deeper {c d : Entry} {p : FsPath} {cs : List Entry} {s : Nat} :
      d ∈ cs → Desc c d → Desc c (Entry.dir p cs s)

/-- A contiguous run inside a list: the first list occurs in the second
between some left part and some right part. -/
def contiguousIn {α : Type} (l₁ l₂ : List α) : Prop :=
  ∃ s t, s ++ l₁ ++ t = l₂

/-- The on-disk state an Entry is constructed from: a file with the byte
size stat reports, or a directory with its named entries in iterdir order. -/
inductive FSNode where
  | file (size : Nat)
  | dir (entries : List (String × FSNode))

mutual

/-- Construction of File(path) / Directory(path) from the on-disk state at
that path: File.__init__ stores the stat size (lines 66-68);
Directory.__init__ captures the children and stores the size computed from
them (lines 119-122). -/
def buildEntry : FsPath → FSNode → Entry
  | p, .file sz => .file p sz
  | p, .dir es => .dir p (buildChildren p es) (sizeAll (buildChildren p es))

/-- Directory._get_children (lines 143-152): one non-recursive listing, each
child constructed eagerly at path / child name, in iterdir order. -/
def buildChildren : FsPath → List (String × FSNode) → List Entry
  | _, [] => []
  | p, (nm, t) :: rest => buildEntry (p ++ [nm]) t :: buildChildren p rest

end

mutual

/-- A well-formed on-disk tree: at every directory the child names are
distinct, as a real directory listing guarantees. -/
def FSNode.wfb : FSNode → Bool
  | .file _ => true
  | .dir es => decide ((es.map Prod.fst).Nodup) && wfbAll es

/-- Well-formedness of every node of a child list. -/
def wfbAll : List (String × FSNode) → Bool
  | [] => true
  | (_, t) :: rest => FSNode.wfb t && wfbAll rest

end

/-- The loop of get_structure (main.py lines 22-24): append
sub.relative_to(directory) for each walked entry, in order; a ValueError
from relative_to aborts the whole loop, modelled as none. -/
def relList : List Entry → FsPath → Option (List FsPath)
  | [], _ => some []
  | e :: rest, root =>
    match Path.relative_to (Entry.path e) root with
    | none => none
    | some q =>
      match relList rest root with
      | none => none
      | some qs => some (q :: qs)

/-- get_structure (main.py lines 20-25): construct Directory(path), walk it,
and map every yielded entry to its path relative to the root. -/
def get_structure (root : FsPath) (es : List (String × FSNode)) :
    Option (List FsPath) :=
  relList (Entry.walk (buildEntry root (FSNode.dir es))) root

/-- compare_files (main.py lines 28-45): current and reference as sets,
extra = current - reference, missing = reference - current, and the verdict
"correct" exactly when both differences are empty.  The reference snapshot
is the loaded list of relative paths. -/
def compare_files (root : FsPath) (es : List (String × FSNode))
    (ref : List FsPath) :
    Option (Finset FsPath × Finset FsPath × Bool) :=
  (get_structure root es).map (fun cur =>
    let current := cur.toFinset
    let reference := ref.toFinset
    let extra := current \ reference
    let missing := reference \ current
    (extra, missing, decide (extra = ∅ ∧ missing = ∅)))

/-- The parent of a path: Path.parent, all components but the last. -/
def parentOf (p : FsPath) : FsPath := p.dropLast

/-- Modelled from the spec: the Path.rename operation that File.rename
(line 106) and Directory.rename (line 199) call is not part of this
repository.  Per the spec it fails with ConflictError if the destination
already exists and NotFoundError if the source vanished; otherwise it moves
the source path to the destination path.  The file system state is the flat
list of existing paths with their sizes. -/
def pathRenameOS (fs : List (FsPath × Nat)) (src dst : FsPath) :
    Option (List (FsPath × Nat)) :=
  if fs.any (fun pr => pr.1 == dst) then none
  else if fs.any (fun pr => pr.1 == src) then
    some (fs.map (fun pr => if pr.1 == src then (dst, pr.2) else pr))
  else none

/-- File.rename (lines 104-107) and Directory.rename (lines 197-200), which
share one shape: new_path = self._path.parent / new_name, then
self._path.rename(new_path), then return an entry constructed at new_path.
The result here is the post-rename path together with the new file system
state. -/
def Entry.rename (fs : List (FsPath × Nat)) (e : Entry) (newName : String) :
    Option (FsPath × List (FsPath × Nat)) :=
  (pathRenameOS fs (Entry.path e) (parentOf (Entry.path e) ++ [newName])).map
    (fun fs2 => (parentOf (Entry.path e) ++ [newName], fs2))

/-! Helper lemmas about relative paths. -/

theorem Path.relative_to_append (p q : FsPath) :
    Path.relative_to (p ++ q) p = some q := by
  induction p with
  | nil => simp [Path.relative_to]
  | cons a p ih => simpa [Path.relative_to] using ih

theorem Path.relative_to_eq_some (p o r : FsPath)
    (h : Path.relative_to p o = some r) : p = o ++ r := by
  induction o generalizing p with
  | nil =>
    simp [Path.relative_to] at h
    simp [h]
  | cons b q ih =>
    cases p with
    | nil => simp [Path.relative_to] at h
    | cons a p' =>
      by_cases hab : a = b
      · subst hab
        simp [Path.relative_to] at h
        simpa using ih p' h
      · simp [Path.relative_to, hab] at h

theorem Path.relative_to_some_iff (p o r : FsPath) :
    Path.relative_to p o = some r ↔ p = o ++ r := by
  constructor
  · exact Path.relative_to_eq_some p o r
  · rintro rfl
    exact Path.relative_to_append o r

theorem Path.relative_to_none_iff (p o : FsPath) :
    Path.relative_to p o = none ↔ ¬ isWithin o p := by
  constructor
  · rintro h ⟨t, rfl⟩
    rw [Path.relative_to_append] at h
    exact Option.noConfusion h
  · intro h
    cases hr : Path.relative_to p o with
    | none => rfl
    | some r =>
      exact absurd ⟨r, (Path.relative_to_eq_some p o r hr).symm⟩ h

/-! Helper lemmas about sizes. -/

theorem sizeAll_eq_sum (cs : List Entry) :
    sizeAll cs = (cs.map Entry.size).sum := by
  induction cs with
  | nil => simp [sizeAll]
  | cons c cs ih => simp [sizeAll, ih]

/-! Helper lemmas about contiguous runs. -/

theorem contiguousIn.append_right {α : Type} {l₁ l₂ : List α} (l₃ : List α)
    (h : contiguousIn l₁ l₂) : contiguousIn l₁ (l₂ ++ l₃) := by
  obtain ⟨s, t, rfl⟩ := h
  exact ⟨s, t ++ l₃, by simp⟩

theorem contiguousIn.append_left {α : Type} {l₁ l₃ : List α} (l₂ : List α)
    (h : contiguousIn l₁ l₃) : contiguousIn l₁ (l₂ ++ l₃) := by
  obtain ⟨s, t, rfl⟩ := h
  exact ⟨l₂ ++ s, t, by simp⟩

theorem contiguousIn.cons {α : Type} {l₁ l₂ : List α} (a : α)
    (h : contiguousIn l₁ l₂) : contiguousIn l₁ (a :: l₂) := by
  obtain ⟨s, t, rfl⟩ := h
  exact ⟨a :: s, t, by simp⟩

theorem contiguousIn_self_append {α : Type} (l₁ t : List α) :
    contiguousIn l₁ (l₁ ++ t) := ⟨[], t, by simp⟩

/-! Helper lemmas about the walk. -/

mutual

theorem mem_walk_iff (e : Entry) :
    ∀ c, c ∈ Entry.walk e ↔ Desc c e := by
  cases e with
  | file p s =>
    intro c
    constructor
    · intro hc
      simp [Entry.walk] at hc
    · intro hc
      cases hc
  | dir p cs s =>
    intro c
    rw [show Entry.walk (.dir p cs s) = walkAll cs from rfl]
    rw [mem_walkAll_iff cs c]
    constructor
    · rintro ⟨d, hd, rfl | hdesc⟩
      · exact Desc.here hd
      · exact Desc.deeper hd hdesc
    · intro h
      cases h with
      | here hmem => exact ⟨c, hmem, Or.inl rfl⟩
      | deeper hmem hdesc => exact ⟨_, hmem, Or.inr hdesc⟩

theorem mem_walkAll_iff (l : List Entry) :
    ∀ c, c ∈ walkAll l ↔ ∃ d ∈ l, c = d ∨ Desc c d := by
  cases l with
  | nil =>
    intro c
    simp [walkAll]
  | cons d ds =>
    intro c
    rw [show walkAll (d :: ds) = d :: Entry.walk d ++ walkAll ds from rfl]
    simp only [List.mem_cons, List.mem_append]
    rw [mem_walk_iff d c, mem_walkAll_iff ds c]
    constructor
    · rintro ((rfl | hdesc) | ⟨d', hd', hcd'⟩)
      · exact ⟨_, Or.inl rfl, Or.inl rfl⟩
      · exact ⟨d, Or.inl rfl, Or.inr hdesc⟩
      · exact ⟨d', Or.inr hd', hcd'⟩
    · rintro ⟨d', rfl | hd', hcd'⟩
      · exact Or.inl hcd'
      · exact Or.inr ⟨d', hd', hcd'⟩

end

mutual

theorem walk_contig (e : Entry) :
    ∀ d ∈ Entry.walk e, contiguousIn (d :: Entry.walk d) (Entry.walk e) := by
  cases e with
  | file p s =>
    intro d hd
    simp [Entry.walk] at hd
  | dir p cs s =>
    intro d hd
    rw [show Entry.walk (.dir p cs s) = walkAll cs from rfl] at hd ⊢
    exact walkAll_contig cs d hd

theorem walkAll_contig (l : List Entry) :
    ∀ d ∈ walkAll l, contiguousIn (d :: Entry.walk d) (walkAll l) := by
  cases l with
  | nil =>
    intro d hd
    simp [walkAll] at hd
  | cons c cs =>
    intro d hd
    rw [show walkAll (c :: cs) = c :: (Entry.walk c ++ walkAll cs) from rfl] at hd ⊢
    rcases List.mem_cons.mp hd with rfl | hd'
    · rw [show d :: (Entry.walk d ++ walkAll cs) = (d :: Entry.walk d) ++ walkAll cs by simp]
      exact contiguousIn_self_append _ _
    · rcases List.mem_append.mp hd' with h1 | h2
      · exact contiguousIn.cons c ((walk_contig c d h1).append_right (walkAll cs))
      · exact contiguousIn.cons c ((walkAll_contig cs d h2).append_left (Entry.walk c))

end

/-! Helper lemmas about construction from the on-disk state. -/

theorem buildEntry_path (p : FsPath) (n : FSNode) :
    Entry.path (buildEntry p n) = p := by
  cases n <;> rfl

mutual

theorem walk_build_path (n : FSNode) :
    ∀ (p : FsPath) (e : Entry), e ∈ Entry.walk (buildEntry p n) →
      ∃ q, q ≠ [] ∧ Entry.path e = p ++ q := by
  cases n with
  | file sz =>
    intro p e he
    simp [buildEntry, Entry.walk] at he
  | dir es =>
    intro p e he
    rw [show Entry.walk (buildEntry p (.dir es)) = walkAll (buildChildren p es)
      from rfl] at he
    obtain ⟨nm, q, _, hpath⟩ := walk_buildChildren_path es p e he
    exact ⟨nm :: q, by simp, hpath⟩

theorem walk_buildChildren_path (es : List (String × FSNode)) :
    ∀ (p : FsPath) (e : Entry), e ∈ walkAll (buildChildren p es) →
      ∃ nm q, nm ∈ es.map Prod.fst ∧ Entry.path e = p ++ (nm :: q) := by
  cases es with
  | nil =>
    intro p e he
    simp [buildChildren, walkAll] at he
  | cons hd rest =>
    intro p e he
    obtain ⟨nm₀, t⟩ := hd
    rw [show walkAll (buildChildren p ((nm₀, t) :: rest)) =
        buildEntry (p ++ [nm₀]) t ::
          (Entry.walk (buildEntry (p ++ [nm₀]) t) ++
            walkAll (buildChildren p rest)) from rfl] at he
    rcases List.mem_cons.mp he with rfl | he'
    · exact ⟨nm₀, [], by simp, by simp [buildEntry_path]⟩
    · rcases List.mem_append.mp he' with h1 | h2
      · obtain ⟨q, hq, hpath⟩ := walk_build_path t (p ++ [nm₀]) e h1
        exact ⟨nm₀, q, by simp, by rw [hpath]; simp⟩
      · obtain ⟨nm, q, hnm, hpath⟩ := walk_buildChildren_path rest p e h2
        exact ⟨nm, q, by simp; right; simpa using hnm, hpath⟩

end

mutual

theorem walk_build_nodup (n : FSNode) :
    ∀ (p : FsPath), FSNode.wfb n = true →
      ((Entry.walk (buildEntry p n)).map Entry.path).Nodup := by
  cases n with
  | file sz =>
    intro p _
    simp [buildEntry, Entry.walk]
  | dir es =>
    intro p hwf
    rw [show FSNode.wfb (.dir es) =
        (decide ((es.map Prod.fst).Nodup) && wfbAll es) from rfl] at hwf
    rw [Bool.and_eq_true, decide_eq_true_eq] at hwf
    rw [show Entry.walk (buildEntry p (.dir es)) = walkAll (buildChildren p es)
      from rfl]
    exact walk_buildChildren_nodup es p hwf.1 hwf.2

theorem walk_buildChildren_nodup (es : List (String × FSNode)) :
    ∀ (p : FsPath), (es.map Prod.fst).Nodup → wfbAll es = true →
      ((walkAll (buildChildren p es)).map Entry.path).Nodup := by
  cases es with
  | nil =>
    intro p _ _
    simp [buildChildren, walkAll]
  | cons hd rest =>
    intro p hnames hwf
    obtain ⟨nm₀, t⟩ := hd
    rw [show (((nm₀, t) :: rest).map Prod.fst) = nm₀ :: rest.map Prod.fst
      from rfl, List.nodup_cons] at hnames
    rw [show wfbAll ((nm₀, t) :: rest) = (FSNode.wfb t && wfbAll rest)
      from rfl, Bool.and_eq_true] at hwf
    rw [show walkAll (buildChildren p ((nm₀, t) :: rest)) =
        buildEntry (p ++ [nm₀]) t ::
          (Entry.walk (buildEntry (p ++ [nm₀]) t) ++
            walkAll (buildChildren p rest)) from rfl]
    rw [List.map_cons, List.map_append, List.nodup_cons, buildEntry_path]
    constructor
    · intro hmem
      rcases List.mem_append.mp hmem with h1 | h2
      · obtain ⟨e, he, hpe⟩ := List.mem_map.mp h1
        obtain ⟨q, hq, hpath⟩ := walk_build_path t (p ++ [nm₀]) e he
        rw [hpath] at hpe
        have : q = [] := by
          have := hpe.symm
          rwa [List.self_eq_append_right] at this
        exact hq this
      · obtain ⟨e, he, hpe⟩ := List.mem_map.mp h2
        obtain ⟨nm, q, hnm, hpath⟩ := walk_buildChildren_path rest p e he
        rw [hpath] at hpe
        have h0 : p ++ (nm :: q) = p ++ [nm₀] := hpe
        have := List.append_cancel_left h0
        rw [List.cons.injEq] at this
        exact hnames.1 (this.1 ▸ hnm)
    · rw [List.nodup_append]
      refine ⟨walk_build_nodup t (p ++ [nm₀]) hwf.1,
        walk_buildChildren_nodup rest p hnames.2 hwf.2, ?_⟩
      intro a ha1 ha2
      obtain ⟨e, he, hpe⟩ := List.mem_map.mp ha1
      obtain ⟨q₁, hq₁, hpath₁⟩ := walk_build_path t (p ++ [nm₀]) e he
      obtain ⟨e', he', hpe'⟩ := List.mem_map.mp ha2
      obtain ⟨nm, q₂, hnm, hpath₂⟩ := walk_buildChildren_path rest p e' he'
      have h1 : Entry.path e' = p ++ [nm] ++ q₂ := by
        rw [hpath₂]
        simp
      have h2 : p ++ [nm₀] ++ q₁ = p ++ [nm] ++ q₂ := by
        rw [← hpath₁, hpe, ← hpe', h1]
      have h0 : p ++ ([nm₀] ++ q₁) = p ++ ([nm] ++ q₂) := by
        simpa [List.append_assoc] using h2
      have h3 := List.append_cancel_left h0
      simp only [List.singleton_append, List.cons.injEq] at h3
      exact hnames.1 (h3.1.symm ▸ hnm)
end

/-! Helper lemmas about the snapshot. -/

theorem relList_eq_some_of (l : List Entry) (root : FsPath)
    (h : ∀ e ∈ l, ∃ q, Path.relative_to (Entry.path e) root = some q) :
    ∃ r, relList l root = some r := by
  induction l with
  | nil => exact ⟨[], rfl⟩
  | cons e rest ih =>
    obtain ⟨q, hq⟩ := h e (by simp)
    obtain ⟨r, hr⟩ := ih (fun e' he' => h e' (by simp [he']))
    exact ⟨q :: r, by simp [relList, hq, hr]⟩

theorem relList_mem (l : List Entry) (root : FsPath) :
    ∀ r, relList l root = some r →
      ∀ q ∈ r, ∃ e ∈ l, Path.relative_to (Entry.path e) root = some q := by
  induction l with
  | nil =>
    intro r h q hq
    simp only [relList] at h
    cases h
    simp at hq
  | cons e rest ih =>
    intro r h q hq
    cases hq₀ : Path.relative_to (Entry.path e) root with
    | none => simp [relList, hq₀] at h
    | some q₀ =>
      cases hqs : relList rest root with
      | none => simp [relList, hq₀, hqs] at h
      | some qs =>
        simp only [relList, hq₀, hqs] at h
        cases h
        rcases List.mem_cons.mp hq with rfl | hq'
        · exact ⟨e, by simp, hq₀⟩
        · obtain ⟨e', he', hrel⟩ := ih qs hqs q hq'
          exact ⟨e', by simp [he'], hrel⟩

theorem get_structure_eq_some (root : FsPath) (es : List (String × FSNode)) :
    ∃ cur, get_structure root es = some cur := by
  apply relList_eq_some_of
  intro e he
  obtain ⟨q, _, hpath⟩ := walk_build_path (FSNode.dir es) root e he
  refine ⟨q, ?_⟩
  rw [hpath]
  exact Path.relative_to_append root q

theorem get_structure_mem (root : FsPath) (es : List (String × FSNode))
    (cur : List FsPath) (h : get_structure root es = some cur) :
    ∀ q ∈ cur, q ≠ [] := by
  intro q hq
  obtain ⟨e, he, hrel⟩ :=
    relList_mem (Entry.walk (buildEntry root (FSNode.dir es))) root cur h q hq
  obtain ⟨q', hq', hpath⟩ := walk_build_path (FSNode.dir es) root e he
  have h1 := Path.relative_to_eq_some _ _ _ hrel
  rw [hpath] at h1
  have h2 := List.append_cancel_left h1
  exact h2 ▸ hq'

/-! The claims. -/

/-- C1 counterexample: a File and a Directory carrying the same path have
equal paths, yet File.__eq__ returns False on the isinstance mismatch, so
equality does not hold iff paths are equal across the two kinds. -/
theorem eqPy_not_path_only :
    ¬ (Entry.eqPy (Entry.file ["a"] 0) (Entry.dir ["a"] [] 0) = true ↔
       Entry.path (Entry.file ["a"] 0) = Entry.path (Entry.dir ["a"] [] 0)) := by
  intro h
  have h2 := h.mpr rfl
  simp [Entry.eqPy] at h2

/-- C1 (amended): for two entries of the same kind (both File or both
Directory) equality holds iff their paths are equal — so same-kind entries
constructed from the same path at different times, with possibly different
sizes, are equal — and the hash, a function of the path alone, is consistent
with this equality. -/
theorem eqPy_iff_kind_and_path (a b : Entry) :
    (Entry.eqPy a b = true ↔
      (Entry.isFile a = Entry.isFile b ∧ Entry.path a = Entry.path b)) ∧
    (Entry.eqPy a b = true → Entry.hashPy a = Entry.hashPy b) := by
  constructor
  · cases a <;> cases b <;> simp [Entry.eqPy, Entry.isFile, Entry.path]
  · intro h
    have hpq : Entry.path a = Entry.path b := by
      cases a <;> cases b <;> simp_all [Entry.eqPy, Entry.path]
    simp [Entry.hashPy, hpq]

/-- C1 witness: two Files of the same path and different stored sizes are
equal and hash identically. -/
theorem eqPy_iff_kind_and_path_witness :
    Entry.eqPy (Entry.file ["a"] 3) (Entry.file ["a"] 5) = true ∧
    Entry.hashPy (Entry.file ["a"] 3) = Entry.hashPy (Entry.file ["a"] 5) := by
  have h := eqPy_iff_kind_and_path (Entry.file ["a"] 3) (Entry.file ["a"] 5)
  have h1 : Entry.eqPy (Entry.file ["a"] 3) (Entry.file ["a"] 5) = true :=
    h.1.mpr ⟨rfl, rfl⟩
  exact ⟨h1, h.2 h1⟩

/-- C2: compare_files always reports: extra is the set difference current
minus reference, missing is reference minus current, membership in each is
exactly presence in one set and absence in the other, and the verdict is
"correct" (true) iff both differences are empty — equivalently iff the two
sets coincide.  An incorrect verdict is an ordinary some result, not a
failure. -/
theorem compare_files_spec (root : FsPath) (es : List (String × FSNode))
    (ref : List FsPath) :
    ∃ cur extra missing verdict,
      get_structure root es = some cur ∧
      compare_files root es ref = some (extra, missing, verdict) ∧
      extra = cur.toFinset \ ref.toFinset ∧
      missing = ref.toFinset \ cur.toFinset ∧
      (∀ q : FsPath, q ∈ extra ↔ q ∈ cur.toFinset ∧ q ∉ ref.toFinset) ∧
      (∀ q : FsPath, q ∈ missing ↔ q ∈ ref.toFinset ∧ q ∉ cur.toFinset) ∧
      (verdict = true ↔ (extra = ∅ ∧ missing = ∅)) ∧
      (verdict = true ↔ cur.toFinset = ref.toFinset) := by
  obtain ⟨cur, hcur⟩ := get_structure_eq_some root es
  refine ⟨cur, cur.toFinset \ ref.toFinset, ref.toFinset \ cur.toFinset,
    decide (cur.toFinset \ ref.toFinset = ∅ ∧ ref.toFinset \ cur.toFinset = ∅),
    hcur, ?_, rfl, rfl, ?_, ?_, ?_, ?_⟩
  · simp [compare_files, hcur]
  · intro q
    simp [Finset.mem_sdiff]
  · intro q
    simp [Finset.mem_sdiff]
  · simp
  · rw [decide_eq_true_eq]
    constructor
    · rintro ⟨h1, h2⟩
      exact Finset.Subset.antisymm (Finset.sdiff_eq_empty_iff_subset.mp h1)
        (Finset.sdiff_eq_empty_iff_subset.mp h2)
    · intro h
      rw [h]
      simp

/-- C3: comparing a root against the snapshot taken from the same unchanged
tree yields empty extra, empty missing and the verdict "correct". -/
theorem compare_self_correct (root : FsPath) (es : List (String × FSNode))
    (cur : List FsPath) (h : get_structure root es = some cur) :
    compare_files root es cur = some (∅, ∅, true) := by
  simp [compare_files, h]

/-- C3 witness: self-comparison on a concrete one-file tree. -/
theorem compare_self_correct_witness :
    compare_files ["r"] [("a", FSNode.file 1)] [["a"]] = some (∅, ∅, true) :=
  compare_self_correct ["r"] [("a", FSNode.file 1)] [["a"]] (by rfl)

/-- C5: a directory's size is the sum of the sizes of its immediate children
(a child directory contributing its full recursive subtree count), it is a
non-negative integer, and an empty directory has size 0. -/
theorem dir_size_spec (p : FsPath) (cs : List Entry) (s : Nat) :
    Entry.size (Entry.dir p cs s) = (cs.map Entry.size).sum ∧
    0 ≤ (Entry.size (Entry.dir p cs s) : Int) ∧
    Entry.size (Entry.dir p [] s) = 0 := by
  refine ⟨?_, Int.natCast_nonneg _, rfl⟩
  rw [show Entry.size (Entry.dir p cs s) = sizeAll cs from rfl]
  exact sizeAll_eq_sum cs

/-- C7: relative_to succeeds with exactly the path difference — the other
path extended by the result is the entry's path — and fails (PathError)
exactly when the entry's path does not lie within the other path; the
entry-level method is the path-level computation on the two paths. -/
theorem relative_to_spec (p other : FsPath) :
    (∀ r, Path.relative_to p other = some r ↔ p = other ++ r) ∧
    (Path.relative_to p other = none ↔ ¬ isWithin other p) ∧
    (∀ e o : Entry, Entry.relative_to e o =
      Path.relative_to (Entry.path e) (Entry.path o)) :=
  ⟨fun r => Path.relative_to_some_iff p other r,
    Path.relative_to_none_iff p other, fun _ _ => rfl⟩

/-- C9: every access of the size property of a constructed Directory (or
File) returns exactly the value stored at construction time, because the
recomputation ranges only over the children captured at construction and
each File size fixed at its construction; the embedding is pure, so the
value is the same on every access and unaffected by any later state. -/
theorem size_property_stable (p : FsPath) (n : FSNode) :
    Entry.size (buildEntry p n) = Entry.sizeStoredOf (buildEntry p n) := by
  cases n <;> rfl

/-- C4: on any captured tree with distinct sibling names, the walk yields
each strict descendant exactly once — the yielded paths are distinct, the
yielded entries are distinct, and an entry is yielded iff it is a strict
descendant — and in depth-first pre-order: every yielded directory is
immediately followed by its own full walk as one contiguous run, so it
precedes all of its children and its subtree is exhausted before the next
sibling. -/
theorem walk_preorder_spec (root : FsPath) (n : FSNode)
    (h : FSNode.wfb n = true) :
    ((Entry.walk (buildEntry root n)).map Entry.path).Nodup ∧
    (Entry.walk (buildEntry root n)).Nodup ∧
    (∀ c, c ∈ Entry.walk (buildEntry root n) ↔ Desc c (buildEntry root n)) ∧
    (∀ d ∈ Entry.walk (buildEntry root n),
      contiguousIn (d :: Entry.walk d) (Entry.walk (buildEntry root n))) :=
  ⟨walk_build_nodup n root h, (walk_build_nodup n root h).of_map,
    mem_walk_iff _, walk_contig _⟩

/-- C4 witness: a two-level tree with distinct names; the walked paths are
pairwise distinct. -/
theorem walk_preorder_spec_witness :
    FSNode.wfb (FSNode.dir [("a", FSNode.file 1),
      ("b", FSNode.dir [("c", FSNode.file 2)])]) = true ∧
    ((Entry.walk (buildEntry ["r"] (FSNode.dir [("a", FSNode.file 1),
      ("b", FSNode.dir [("c", FSNode.file 2)])]))).map Entry.path).Nodup := by
  have h : FSNode.wfb (FSNode.dir [("a", FSNode.file 1),
      ("b", FSNode.dir [("c", FSNode.file 2)])]) = true := by decide
  exact ⟨h, (walk_preorder_spec ["r"] _ h).1⟩

/-- Success analysis of the modelled rename primitive: a some result is the
state with the source entries moved to the destination, and the source was
present. -/
theorem pathRenameOS_eq_some (fs : List (FsPath × Nat)) (src dst : FsPath)
    (fs2 : List (FsPath × Nat)) (h : pathRenameOS fs src dst = some fs2) :
    fs2 = fs.map (fun pr => if pr.1 == src then (dst, pr.2) else pr) ∧
    (fs.any (fun pr => pr.1 == src)) = true := by
  by_cases h1 : (fs.any (fun pr => pr.1 == dst)) = true
  · rw [pathRenameOS, if_pos h1] at h
    exact absurd h (by simp)
  · by_cases h2 : (fs.any (fun pr => pr.1 == src)) = true
    · rw [pathRenameOS, if_neg h1, if_pos h2] at h
      exact ⟨(Option.some.inj h).symm, h2⟩
    · rw [pathRenameOS, if_neg h1, if_neg h2] at h
      exact absurd h (by simp)

/-- C6: rename computes the sibling destination path carrying the new name
inside the same parent directory; on success the returned post-rename path
is that sibling, it exists in the new state, and the old path is gone; if
the destination already exists the operation fails (ConflictError). -/
theorem rename_spec (fs : List (FsPath × Nat)) (e : Entry) (newName : String) :
    (∀ p fs2, Entry.rename fs e newName = some (p, fs2) →
      p = parentOf (Entry.path e) ++ [newName] ∧
      parentOf p = parentOf (Entry.path e) ∧
      p ∈ fs2.map Prod.fst ∧
      (Entry.path e ≠ p → Entry.path e ∉ fs2.map Prod.fst)) ∧
    ((∃ sz, (parentOf (Entry.path e) ++ [newName], sz) ∈ fs) →
      Entry.rename fs e newName = none) := by
  constructor
  · intro p fs2 h
    simp only [Entry.rename] at h
    cases hos : pathRenameOS fs (Entry.path e)
        (parentOf (Entry.path e) ++ [newName]) with
    | none =>
      rw [hos] at h
      exact absurd h (by simp)
    | some fs' =>
      rw [hos] at h
      have h' := Option.some.inj h
      rw [Prod.mk.injEq] at h'
      obtain ⟨hp, hfs⟩ := h'
      subst hfs
      obtain ⟨hmapeq, hsrc⟩ := pathRenameOS_eq_some fs _ _ fs' hos
      subst hmapeq
      refine ⟨hp.symm, by rw [← hp, parentOf, List.dropLast_concat], ?_, ?_⟩
      · rw [List.any_eq_true] at hsrc
        obtain ⟨pr, hpr, hbeq⟩ := hsrc
        rw [← hp, List.map_map, List.mem_map]
        refine ⟨pr, hpr, ?_⟩
        simp [Function.comp, hbeq]
      · intro hne hmem
        rw [List.map_map, List.mem_map] at hmem
        obtain ⟨pr, hpr, hpr2⟩ := hmem
        simp only [Function.comp_apply] at hpr2
        split at hpr2
        · exact hne (by rw [← hp]; exact hpr2.symm)
        · next hb =>
          simp only [show pr.1 = Entry.path e from hpr2] at hb
          simp at hb
  · rintro ⟨sz, hsz⟩
    simp only [Entry.rename, pathRenameOS]
    rw [if_pos]
    · rfl
    · rw [List.any_eq_true]
      exact ⟨(parentOf (Entry.path e) ++ [newName], sz), hsz, by simp⟩

/-- C6 witness: renaming a file onto an already existing destination fails;
the destination path on the happy path is the sibling with the new name. -/
theorem rename_spec_witness :
    Entry.rename [(["d", "old"], 7)] (Entry.file ["d", "old"] 7) "new" =
      some (["d", "new"], [(["d", "new"], 7)]) ∧
    (["d", "new"] : FsPath) ∈
      ([(["d", "new"], 7)] : List (FsPath × Nat)).map Prod.fst ∧
    Entry.rename [(["d", "new"], 3)] (Entry.file ["d", "old"] 7) "new" =
      none := by
  have hsome : Entry.rename [(["d", "old"], 7)] (Entry.file ["d", "old"] 7)
      "new" = some (["d", "new"], [(["d", "new"], 7)]) := by decide
  refine ⟨hsome, ?_, ?_⟩
  · exact ((rename_spec [(["d", "old"], 7)] (Entry.file ["d", "old"] 7)
      "new").1 ["d", "new"] [(["d", "new"], 7)] hsome).2.2.1
  · exact (rename_spec [(["d", "new"], 3)] (Entry.file ["d", "old"] 7)
      "new").2 ⟨3, List.mem_singleton.mpr rfl⟩

/-- C8: get_child returns the first captured child whose name matches when
one exists — a returned child is a captured child with the requested name —
and returns None, a normal no-result, exactly when no child has that
name. -/
theorem get_child_spec (p : FsPath) (cs : List Entry) (s : Nat) (nm : String) :
    (∀ c, Directory.get_child (Entry.dir p cs s) nm = some c →
      c ∈ cs ∧ Entry.name c = nm) ∧
    (Directory.get_child (Entry.dir p cs s) nm = none ↔
      ∀ c ∈ cs, Entry.name c ≠ nm) := by
  constructor
  · intro c hc
    have h1 := List.mem_of_find?_eq_some hc
    have h2 := List.find?_some hc
    exact ⟨h1, by simpa using h2⟩
  · rw [show Directory.get_child (Entry.dir p cs s) nm =
      cs.find? (fun c => Entry.name c == nm) from rfl]
    rw [List.find?_eq_none]
    constructor
    · intro h c hc
      simpa using h c hc
    · intro h c hc
      simpa using h c hc

/-- C8 witness: on a directory with a single child named a, looking up a
succeeds with that child and looking up b returns None. -/
theorem get_child_spec_witness :
    (Entry.file ["r", "a"] 1 ∈ [Entry.file ["r", "a"] 1] ∧
      Entry.name (Entry.file ["r", "a"] 1) = "a") ∧
    Directory.get_child (Entry.dir ["r"] [Entry.file ["r", "a"] 1] 1) "b" =
      none := by
  have hsome : Directory.get_child
      (Entry.dir ["r"] [Entry.file ["r", "a"] 1] 1) "a" =
      some (Entry.file ["r", "a"] 1) := by rfl
  refine ⟨(get_child_spec ["r"] [Entry.file ["r", "a"] 1] 1 "a").1
    (Entry.file ["r", "a"] 1) hsome, ?_⟩
  exact (get_child_spec ["r"] [Entry.file ["r", "a"] 1] 1 "b").2.mpr
    (by decide)

/-- C10: the walk of a constructed root yields only strict descendants —
every yielded path strictly extends the root path — so the snapshot never
contains the empty relative path that would stand for the root itself. -/
theorem snapshot_no_root (root : FsPath) (es : List (String × FSNode))
    (cur : List FsPath) (h : get_structure root es = some cur) :
    ([] : FsPath) ∉ cur ∧
    ∀ e ∈ Entry.walk (buildEntry root (FSNode.dir es)),
      ∃ q, q ≠ [] ∧ Entry.path e = root ++ q := by
  refine ⟨?_, fun e he => walk_build_path (FSNode.dir es) root e he⟩
  intro hmem
  exact get_structure_mem root es cur h [] hmem rfl

/-- C10 witness: the snapshot of a concrete one-file tree does not contain
the empty relative path. -/
theorem snapshot_no_root_witness :
    ([] : FsPath) ∉ [["f"]] :=
  (snapshot_no_root ["top"] [("f", FSNode.file 9)] [["f"]] (by rfl)).1
